import Mathlib

/-!
Verification development for the workspace Docs/Slides services and the
OAuth credential merge of the Auth Manager.

Strings are modelled as `List Char` (the claims under study only involve
ASCII text, where JavaScript UTF-16 code units coincide with characters).
JavaScript `undefined`/absent fields are modelled with `Option`.

Sources embedded below:
- `src/workspace-server/src/services/DocsService.ts`
  (`_generateReplacementRequests`, `_getFullDocumentText`,
  `_readStructuralElement`, `replaceText`, `_addTabIdToFormattingRequests`);
- the markdown compiler `parseMarkdownToDocsRequests` /
  `processMarkdownLineBreaks` shipped alongside the Docs tests;
- `src/workspace-server/src/services/SlidesService.ts` (`replaceAllText`);
- the Auth Manager credential merge, modelled from the spec (its
  implementation file is not part of the sources, only its tests).
-/

/-- JavaScript truthiness for a run of text: `pat` occurs in `text` at
position `i` exactly when the `pat.length` characters starting at `i`
are `pat` (so an empty `pat` occurs at every position, including
`text.length`). -/
def matchesAt (text pat : List Char) (i : Nat) : Bool :=
  decide ((text.drop i).take pat.length = pat)

/-- Model of JavaScript `String.prototype.indexOf(pat, start)`:
the start position is clamped to `[0, text.length]`, and the result is
the smallest position `j` at or after the clamped start where `pat`
occurs, or `none` (JavaScript `-1`) when there is no such position.
For an empty `pat` this always returns the clamped start, never `none`. -/
def jsIndexOf (text pat : List Char) (start : Nat) : Option Nat :=
  let s := min start text.length
  (List.range (text.length + 1 - s)).findSome? fun k =>
    if matchesAt text pat (s + k) then some (s + k) else none

/-- The occurrence-collection `while` loop of
`DocsService._generateReplacementRequests` (DocsService.ts:662-667):

    let searchIndex = 0;
    while ((searchIndex = documentText.indexOf(findText, searchIndex)) !== -1) \x7b
      occurrences.push(searchIndex + 1);
      searchIndex += findText.length;
    \x7d

The loop is given explicit fuel; `none` models non-termination (the fuel
ran out without the `-1` exit ever being taken). Occurrences are recorded
1-based, as in the source (`searchIndex + 1`). -/
def collectOccurrences (text find : List Char) :
    Nat → Nat → List Nat → Option (List Nat)
  | 0, _, _ => none
  | fuel + 1, searchIndex, acc =>
    match jsIndexOf text find searchIndex with
    | none => some acc
    | some idx => collectOccurrences text find fuel (idx + find.length) (acc ++ [idx + 1])

/-! ## Google Docs API request model (docs_v1.Schema$Request, the fields this code uses) -/

/-- An RGB colour; the source writes components as decimal fractions
(e.g. 0.95), modelled here as exact rationals. -/
structure RgbColor where
  red : ℚ
  green : ℚ
  blue : ℚ
deriving DecidableEq

/-- The `\x7bcolor: \x7brgbColor: …\x7d\x7d` wrapper used by
`backgroundColor` / `foregroundColor`. -/
structure ColorWrap where
  rgbColor : RgbColor
deriving DecidableEq

structure WeightedFontFamily where
  fontFamily : String
  weight : Nat
deriving DecidableEq

structure TextLink where
  url : String
deriving DecidableEq

/-- `docs_v1.Schema$TextStyle`, restricted to the fields this code sets. -/
structure TextStyle where
  bold : Option Bool := none
  italic : Option Bool := none
  weightedFontFamily : Option WeightedFontFamily := none
  backgroundColor : Option ColorWrap := none
  link : Option TextLink := none
  foregroundColor : Option ColorWrap := none
  underline : Option Bool := none
deriving DecidableEq

/-- `docs_v1.Schema$Range`. Indices are `Int` because the planner's
cumulative offset may be negative. -/
structure DocRange where
  tabId : Option String := none
  startIndex : Option Int := none
  endIndex : Option Int := none
deriving DecidableEq

structure UpdateTextStyleRequest where
  range : Option DocRange := none
  textStyle : TextStyle
  fields : String
deriving DecidableEq

structure ParagraphStyle where
  namedStyleType : String
deriving DecidableEq

structure UpdateParagraphStyleRequest where
  paragraphStyle : ParagraphStyle
  range : Option DocRange := none
  fields : String
deriving DecidableEq

structure DocLocation where
  tabId : Option String := none
  index : Int
deriving DecidableEq

structure InsertTextRequest where
  location : Option DocLocation := none
  text : List Char
deriving DecidableEq

structure DeleteContentRangeRequest where
  range : DocRange
deriving DecidableEq

/-- `docs_v1.Schema$Request`: a JavaScript object with at most one of
these keys set (the code only ever builds single-key requests, but the
translation keeps all four slots, mirroring the schema). -/
structure DocsRequest where
  updateTextStyle : Option UpdateTextStyleRequest := none
  updateParagraphStyle : Option UpdateParagraphStyleRequest := none
  insertText : Option InsertTextRequest := none
  deleteContentRange : Option DeleteContentRangeRequest := none
deriving DecidableEq

/-! ## Document structural elements and text extraction -/

/-- `docs_v1.Schema$StructuralElement`, as consumed by
`_readStructuralElement`: a paragraph is a list of paragraph elements,
each carrying an optional `textRun.content` string; a table is rows of
cells of structural elements. -/
inductive SElem where
  | paragraph (runs : List (Option String)) : SElem
  | table (rows : List (List (List SElem))) : SElem

mutual

/-- `DocsService._readStructuralElement` (DocsService.ts:433-453):
paragraphs contribute each element's `textRun.content` when that field
is truthy (present and non-empty); tables recurse through rows and
cells. -/
def readStructuralElement : SElem → List Char
  | .paragraph runs => readParagraphRuns runs
  | .table rows => readTableRows rows

def readParagraphRuns : List (Option String) → List Char
  | [] => []
  | r :: rest =>
    (match r with
     | some s => if s = "" then [] else s.toList
     | none => []) ++ readParagraphRuns rest

def readTableRows : List (List (List SElem)) → List Char
  | [] => []
  | row :: rest => readTableRow row ++ readTableRows rest

def readTableRow : List (List SElem) → List Char
  | [] => []
  | cell :: rest => readTableCell cell ++ readTableRow rest

def readTableCell : List SElem → List Char
  | [] => []
  | e :: rest => readStructuralElement e ++ readTableCell rest

end

/-- `DocsService._getFullDocumentText` (DocsService.ts:724-734); the
`content` argument may be absent (JavaScript `undefined`), in which case
the text is empty. -/
def fullDocumentText : Option (List SElem) → List Char
  | none => []
  | some content => (content.map readStructuralElement).flatten

/-! ## Text-replacement planner (`DocsService._generateReplacementRequests`) -/

/-- The per-formatting-request body of the planner's formatting loop
(DocsService.ts:699-717): a request is re-emitted only when it has an
`updateTextStyle` key; the new request keeps the style's `textStyle` and
`fields` but rebuilds `range` with the planner's `tabId` and with both
indices shifted by `adjustedPosition` (an absent index is read as `0`
via `|| 0`). Requests without `updateTextStyle` — notably the heading
`updateParagraphStyle` requests — yield `none` and are dropped. -/
def reanchorFormatting (tabId : Option String) (adjustedPosition : Int)
    (req : DocsRequest) : Option DocsRequest :=
  match req.updateTextStyle with
  | none => none
  | some uts =>
    some { updateTextStyle := some { uts with range := some {
      tabId := tabId,
      startIndex := some (((uts.range.bind DocRange.startIndex).getD 0) + adjustedPosition),
      endIndex := some (((uts.range.bind DocRange.endIndex).getD 0) + adjustedPosition) } } }

/-- The `for` loop over occurrences in
`DocsService._generateReplacementRequests` (DocsService.ts:672-720):
for each occurrence it pushes a `deleteContentRange`, an `insertText`,
and the re-anchored `updateTextStyle` requests, then advances the
cumulative offset by `processedText.length - findText.length`. -/
def replacementLoop (tabId : Option String) (find processed : List Char)
    (fmts : List DocsRequest) : List Nat → Int → List DocsRequest
  | [], _ => []
  | occurrence :: rest, cumulativeOffset =>
    let adjustedPosition : Int := (occurrence : Int) + cumulativeOffset
    ({ deleteContentRange := some { range := {
        tabId := tabId,
        startIndex := some adjustedPosition,
        endIndex := some (adjustedPosition + (find.length : Int)) } } } ::
     { insertText := some {
        location := some { tabId := tabId, index := adjustedPosition },
        text := processed } } ::
     fmts.filterMap (reanchorFormatting tabId adjustedPosition))
    ++ replacementLoop tabId find processed fmts rest
        (cumulativeOffset + ((processed.length : Int) - (find.length : Int)))

/-- `DocsService._generateReplacementRequests` (DocsService.ts:653-722):
extract the document text, collect all 1-based occurrences of
`findText` (non-overlapping, search resuming after each match), then run
the emission loop with a cumulative offset starting at `0`. The
occurrence loop is fueled with `documentText.length + 1`, which is
enough iterations for any non-empty `findText`; `none` models the
loop's divergence. -/
def generateReplacementRequests (content : Option (List SElem))
    (tabId : Option String) (find processed : List Char)
    (fmts : List DocsRequest) : Option (List DocsRequest) :=
  let documentText := fullDocumentText content
  (collectOccurrences documentText find (documentText.length + 1) 0 []).map
    fun occurrences => replacementLoop tabId find processed fmts occurrences 0

/-! ## `DocsService.replaceText` (DocsService.ts:555-651), after markdown compilation -/

/-- One tab of a document, as consumed by `replaceText`:
`tabProperties?.tabId` and `documentTab?.body?.content`. -/
structure DocTab where
  tabId : Option String := none
  content : Option (List SElem) := none

/-- The outcome of a `replaceText` call: the batched requests, whether
`documents.batchUpdate` was invoked (the source guards it with
`requests.length > 0`), and the textual result. -/
structure ReplaceTextOutcome where
  requests : List DocsRequest
  batchUpdateCalled : Bool
  resultText : String
deriving DecidableEq

/-- The request-building core of `DocsService.replaceText`
(DocsService.ts:585-637), taking the already-compiled replacement
(`processedText` and `originalFormattingRequests`) as inputs. With a
`tabId` the named tab is looked up (`Except.error` models the thrown
`Tab with ID … not found.`); otherwise every tab is processed and the
requests are concatenated. The outer `Option` is `none` when the
occurrence scan of some processed tab diverges. -/
def replaceTextOutcome (documentId : String) (tabs : List DocTab)
    (tabId : Option String) (find processed : List Char)
    (fmts : List DocsRequest) : Option (Except String ReplaceTextOutcome) :=
  let pack : List DocsRequest → ReplaceTextOutcome := fun requests =>
    { requests := requests,
      batchUpdateCalled := decide (requests.length > 0),
      resultText := "Successfully replaced text in document " ++ documentId }
  match tabId with
  | some t =>
    match tabs.find? (fun tab => tab.tabId = some t) with
    | none => some (.error ("Tab with ID " ++ t ++ " not found."))
    | some tab =>
      (generateReplacementRequests tab.content (some t) find processed fmts).map
        fun reqs => .ok (pack reqs)
  | none =>
    (tabs.mapM fun tab =>
        generateReplacementRequests tab.content tab.tabId find processed fmts).map
      fun reqLists => .ok (pack reqLists.flatten)

/-! ## Markdown compiler (`parseMarkdownToDocsRequests`) -/

/-- The `type` tag of a marked lexer token, as inspected by
`processTokens`; every tag other than the six recognised ones lands in
`other` (the source's final `else` fallback). -/
inductive MdTokenType where
  | text
  | escape
  | strong
  | em
  | codespan
  | link
  | other (tag : String)
deriving DecidableEq

/-- A marked lexer token, restricted to the fields `processTokens`
reads: `type`, `text`, `href` (links), and the optional nested `tokens`
list. -/
inductive MdToken where
  | mk (ttype : MdTokenType) (tokText : String) (href : Option String)
      (sub : Option (List MdToken)) : MdToken

/-- The kind of a `FormatRange` (the `type` field in the source). -/
inductive FormatType where
  | bold
  | italic
  | code
  | link
  | heading
deriving DecidableEq

/-- The compiler's `FormatRange` record; `stop` is the source's `end`
field (a Lean keyword). `headingLevel` and `isParagraph` are the
optional fields only heading ranges set. -/
structure FormatRange where
  start : Nat
  stop : Nat
  type : FormatType
  url : Option String := none
  headingLevel : Option Nat := none
  isParagraph : Option Bool := none
deriving DecidableEq

/-- The mutable state of the compiler: the accumulated `plainText` and
the `formattingRanges` collected so far. -/
structure CompileState where
  plainText : List Char := []
  ranges : List FormatRange := []

mutual

/-- One iteration of the `processTokens` token walk
(markdownToDocsRequests.ts:944-987). `start` is captured before the
token contributes text; bold/italic/code/link ranges are pushed after
the nested walk, covering exactly the text the token contributed.
The fallback (`other`) appends `token.text` only when it is truthy. -/
def processOne : MdToken → CompileState → CompileState
  | .mk ttype tokText href sub, st =>
    let start := st.plainText.length
    match ttype with
    | .text =>
      match sub with
      | some ts => processMany ts st
      | none => { st with plainText := st.plainText ++ tokText.toList }
    | .escape =>
      match sub with
      | some ts => processMany ts st
      | none => { st with plainText := st.plainText ++ tokText.toList }
    | .strong =>
      let st1 :=
        match sub with
        | some ts => processMany ts st
        | none => { st with plainText := st.plainText ++ tokText.toList }
      { st1 with ranges := st1.ranges ++
          [{ start := start, stop := st1.plainText.length, type := .bold }] }
    | .em =>
      let st1 :=
        match sub with
        | some ts => processMany ts st
        | none => { st with plainText := st.plainText ++ tokText.toList }
      { st1 with ranges := st1.ranges ++
          [{ start := start, stop := st1.plainText.length, type := .italic }] }
    | .codespan =>
      let st1 := { st with plainText := st.plainText ++ tokText.toList }
      { st1 with ranges := st1.ranges ++
          [{ start := start, stop := st1.plainText.length, type := .code }] }
    | .link =>
      let st1 :=
        match sub with
        | some ts => processMany ts st
        | none => { st with plainText := st.plainText ++ tokText.toList }
      { st1 with ranges := st1.ranges ++
          [{ start := start, stop := st1.plainText.length, type := .link, url := href }] }
    | .other _ =>
      match sub with
      | some ts => processMany ts st
      | none =>
        if tokText = "" then st
        else { st with plainText := st.plainText ++ tokText.toList }

/-- `tokens.forEach(...)` of `processTokens`. -/
def processMany : List MdToken → CompileState → CompileState
  | [], st => st
  | t :: ts, st => processMany ts (processOne t st)

end

/-- The whitespace class of the JavaScript regex `\s`, restricted to the
ASCII members (the sources only ever use plain spaces). -/
def isJsSpace (c : Char) : Bool :=
  c = ' ' ∨ c = '\t' ∨ c = '\n' ∨ c = '\r' ∨ c = '\x0b' ∨ c = '\x0c'

/-- JavaScript `String.prototype.trim()` on a character list. -/
def jsTrim (cs : List Char) : List Char :=
  ((cs.dropWhile isJsSpace).reverse.dropWhile isJsSpace).reverse

/-- JavaScript `markdown.split('\n')` on a character list: the empty
input yields one empty line, and a trailing newline yields a trailing
empty line. -/
def splitLinesChars : List Char → List (List Char)
  | [] => [[]]
  | c :: cs =>
    if c = '\n' then [] :: splitLinesChars cs
    else
      match splitLinesChars cs with
      | [] => [[c]]
      | l :: ls => (c :: l) :: ls

/-- `line.match(/^(#\x7b1,6\x7d)\s+(.+)$/)` from the compiler's line loop
(markdownToDocsRequests.ts:993), returning the captured heading level
and content. With backtracking semantics, a match needs a leading run
of 1–6 `#` (a seventh `#` kills every candidate split), then at least
one whitespace, then at least one further character; the greedy `\s+`
gives one whitespace character back when nothing else remains for
`(.+)`. Faithful for newline-free lines, which is the only use: lines
come from `markdown.split('\n')`. -/
def headingMatch (line : List Char) : Option (Nat × List Char) :=
  let hashes := (line.takeWhile (fun c => c = '#')).length
  if 1 ≤ hashes ∧ hashes ≤ 6 then
    let rest := line.drop hashes
    let ws := (rest.takeWhile isJsSpace).length
    if ws = 0 then none
    else if ws < rest.length then some (hashes, rest.drop ws)
    else if 2 ≤ ws then some (hashes, rest.drop (ws - 1))
    else none
  else none

/-- `headingStyles[level] || 'HEADING_1'`
(markdownToDocsRequests.ts:1080-1089). -/
def headingStyleName (level : Nat) : String :=
  match level with
  | 1 => "HEADING_1"
  | 2 => "HEADING_2"
  | 3 => "HEADING_3"
  | 4 => "HEADING_4"
  | 5 => "HEADING_5"
  | 6 => "HEADING_6"
  | _ => "HEADING_1"

/-- The body of the compiler's lowering loop over `formattingRanges`
(markdownToDocsRequests.ts:1034-1121), as the list of requests one
range contributes. Bold/italic/code/link ranges become one
`updateTextStyle` request (a link needs a truthy `url`); a heading
range with a truthy `headingLevel` and `isParagraph` becomes one
`updateParagraphStyle` request and — via the source's `continue` —
never an `updateTextStyle` one; any other range has no `fields` and
contributes nothing. -/
def lowerRange (startIndex : Int) (r : FormatRange) : List DocsRequest :=
  match r.type with
  | .bold =>
    [{ updateTextStyle := some {
        range := some { startIndex := some (startIndex + (r.start : Int)),
                        endIndex := some (startIndex + (r.stop : Int)) },
        textStyle := { bold := some true },
        fields := "bold" } }]
  | .italic =>
    [{ updateTextStyle := some {
        range := some { startIndex := some (startIndex + (r.start : Int)),
                        endIndex := some (startIndex + (r.stop : Int)) },
        textStyle := { italic := some true },
        fields := "italic" } }]
  | .code =>
    [{ updateTextStyle := some {
        range := some { startIndex := some (startIndex + (r.start : Int)),
                        endIndex := some (startIndex + (r.stop : Int)) },
        textStyle := {
          weightedFontFamily := some { fontFamily := "Courier New", weight := 400 },
          backgroundColor := some { rgbColor :=
            { red := 95/100, green := 95/100, blue := 95/100 } } },
        fields := "weightedFontFamily,backgroundColor" } }]
  | .link =>
    match r.url with
    | some u =>
      if u = "" then []
      else
        [{ updateTextStyle := some {
            range := some { startIndex := some (startIndex + (r.start : Int)),
                            endIndex := some (startIndex + (r.stop : Int)) },
            textStyle := {
              link := some { url := u },
              foregroundColor := some { rgbColor :=
                { red := 6/100, green := 33/100, blue := 80/100 } },
              underline := some true },
            fields := "link,foregroundColor,underline" } }]
    | none => []
  | .heading =>
    match r.headingLevel with
    | some level =>
      if level ≠ 0 ∧ r.isParagraph = some true then
        [{ updateParagraphStyle := some {
            paragraphStyle := { namedStyleType := headingStyleName level },
            range := some { startIndex := some (startIndex + (r.start : Int)),
                            endIndex := some (startIndex + (r.stop : Int)) },
            fields := "namedStyleType" } }]
      else []
    | none => []

/-- The compiler's lowering loop: requests accumulate left to right in
range-discovery order. -/
def generateFormattingRequests (startIndex : Int) (ranges : List FormatRange) :
    List DocsRequest :=
  ranges.foldl (fun acc r => acc ++ lowerRange startIndex r) []

/-- One iteration of the compiler's line loop
(markdownToDocsRequests.ts:989-1029): a heading line first parses its
inline content, then layers a full-line heading range on top; any other
non-blank line is inline content; a blank line contributes nothing.
`inlineTokens` is the external marked lexer. -/
def compileLine (inlineTokens : List Char → List MdToken) (line : List Char)
    (st : CompileState) : CompileState :=
  match headingMatch line with
  | some (level, content) =>
    let start := st.plainText.length
    let st1 := processMany (inlineTokens content) st
    { st1 with ranges := st1.ranges ++
        [{ start := start, stop := st1.plainText.length, type := .heading,
           headingLevel := some level, isParagraph := some true }] }
  | none =>
    if jsTrim line = [] then st
    else processMany (inlineTokens line) st

/-- The line loop with its trailing-newline rule: a literal newline is
appended after every line except the last. -/
def compileLines (inlineTokens : List Char → List MdToken) :
    List (List Char) → CompileState → CompileState
  | [], st => st
  | [line], st => compileLine inlineTokens line st
  | line :: rest, st =>
    let st1 := compileLine inlineTokens line st
    compileLines inlineTokens rest { st1 with plainText := st1.plainText ++ ['\n'] }

/-- `parseMarkdownToDocsRequests(markdown, startIndex)`
(markdownToDocsRequests.ts:931-1127), parameterised by the external
marked inline lexer. -/
def parseMarkdownToDocsRequests (inlineTokens : List Char → List MdToken)
    (markdown : List Char) (startIndex : Int) : List Char × List DocsRequest :=
  let st := compileLines inlineTokens (splitLinesChars markdown) {}
  (st.plainText, generateFormattingRequests startIndex st.ranges)

/-! ## `processMarkdownLineBreaks` -/

mutual

/-- `text.replace(/\n\n+/g, '\n\n')`
(markdownToDocsRequests.ts:1132-1136), operationally: scanning left to
right, each (greedy, hence maximal) match of two-or-more newlines is
replaced by exactly two, and scanning resumes after the match. -/
def collapseNewlineRuns : List Char → List Char
  | [] => []
  | [c] => [c]
  | c1 :: c2 :: rest =>
    if c1 = '\n' ∧ c2 = '\n' then
      '\n' :: '\n' :: collapseNewlineTail rest
    else
      c1 :: collapseNewlineRuns (c2 :: rest)
termination_by l => (l.length, 0)

/-- Consumes the rest of a greedy `\n\n+` match, then resumes the scan. -/
def collapseNewlineTail : List Char → List Char
  | [] => []
  | c :: cs =>
    if c = '\n' then collapseNewlineTail cs
    else collapseNewlineRuns (c :: cs)
termination_by l => (l.length, 1)

end

/-- `processMarkdownLineBreaks` on strings. -/
def processMarkdownLineBreaks (text : String) : String :=
  String.mk (collapseNewlineRuns text.toList)

/-- The specification's reading of the same function: each maximal run
of newlines of length `k` is replaced by `min k 2` newlines, every
other character is copied unchanged. Stated as a second definition to
be compared with the operational `collapseNewlineRuns`. -/
def collapseNewlineRunsSpec : List Char → List Char
  | [] => []
  | c :: cs =>
    if c = '\n' then
      List.replicate (min (1 + (cs.takeWhile (fun x => x = '\n')).length) 2) '\n'
        ++ collapseNewlineRunsSpec (cs.dropWhile (fun x => x = '\n'))
    else
      c :: collapseNewlineRunsSpec cs
termination_by l => l.length
decreasing_by
  all_goals simp only [List.length_cons]
  · have : (List.dropWhile (fun x => x = '\n') cs).length ≤ cs.length := by
      induction cs with
      | nil => simp [List.dropWhile]
      | cons a l ih =>
        by_cases h : a = '\n'
        · simp [List.dropWhile, h]
          omega
        · simp [List.dropWhile, h]
    omega
  · omega

/-! ## Closed-form view of the planner's per-occurrence emission -/

/-- The block of requests the planner emits for a single occurrence at
`adjustedPosition`: the delete, the insert, then the re-anchored
`updateTextStyle` requests. Used to state the closed form of
`replacementLoop`. -/
def occurrenceBlock (tabId : Option String) (find processed : List Char)
    (fmts : List DocsRequest) (adjustedPosition : Int) : List DocsRequest :=
  { deleteContentRange := some { range := {
      tabId := tabId,
      startIndex := some adjustedPosition,
      endIndex := some (adjustedPosition + (find.length : Int)) } } } ::
  { insertText := some {
      location := some { tabId := tabId, index := adjustedPosition },
      text := processed } } ::
  fmts.filterMap (reanchorFormatting tabId adjustedPosition)

/-! ## `DocsService._addTabIdToFormattingRequests` -/

/-- The body of the `requests.map` in `_addTabIdToFormattingRequests`
(DocsService.ts:743-764): shallow-copy the request and, for each of
`updateTextStyle.range`, `updateParagraphStyle.range` and
`insertText.location` that is present, rebuild that sub-object with the
given `tabId`. Nothing else — in particular `deleteContentRange` — is
touched. -/
def tagRequest (tabId : String) (req : DocsRequest) : DocsRequest :=
  let req1 :=
    match req.updateTextStyle with
    | some uts =>
      match uts.range with
      | some r =>
        { req with updateTextStyle := some { uts with range := some { r with tabId := some tabId } } }
      | none => req
    | none => req
  let req2 :=
    match req1.updateParagraphStyle with
    | some ups =>
      match ups.range with
      | some r =>
        { req1 with updateParagraphStyle := some { ups with range := some { r with tabId := some tabId } } }
      | none => req1
    | none => req1
  match req2.insertText with
  | some ins =>
    match ins.location with
    | some loc =>
      { req2 with insertText := some { ins with location := some { loc with tabId := some tabId } } }
    | none => req2
  | none => req2

/-- `DocsService._addTabIdToFormattingRequests` (DocsService.ts:736-765).
The guard `!tabId || requests.length === 0` returns the input list
unchanged; note that in JavaScript an empty-string `tabId` is falsy. -/
def addTabIdToFormattingRequests (requests : List DocsRequest)
    (tabId : Option String) : List DocsRequest :=
  match tabId with
  | none => requests
  | some t =>
    if t = "" ∨ requests = [] then requests
    else requests.map (tagRequest t)

/-- Erases exactly the three `tabId` slots that
`_addTabIdToFormattingRequests` may write (`updateTextStyle.range`,
`updateParagraphStyle.range`, `insertText.location`), leaving every
other field — including `deleteContentRange` — untouched. Two requests
with equal images under this map differ at most in those three slots. -/
def stripPlannerTabIds (req : DocsRequest) : DocsRequest :=
  { req with
    updateTextStyle := req.updateTextStyle.map fun uts =>
      { uts with range := uts.range.map fun r => { r with tabId := none } },
    updateParagraphStyle := req.updateParagraphStyle.map fun ups =>
      { ups with range := ups.range.map fun r => { r with tabId := none } },
    insertText := req.insertText.map fun ins =>
      { ins with location := ins.location.map fun loc => { loc with tabId := none } } }

/-! ## `SlidesService.replaceAllText` -/

/-- The `replaceAllText` entry of a `slides_v1.Schema$Request` built at
SlidesService.ts:218-226. -/
structure SlideReplaceAllText where
  text : String
  matchCase : Bool
  replaceText : String
deriving DecidableEq

structure SlideRequest where
  replaceAllText : SlideReplaceAllText
deriving DecidableEq

/-- Outcome of `SlidesService.replaceAllText`: either the early return
with a plain message and no remote call, or a
`presentations.batchUpdate` call carrying the built requests. -/
inductive SlidesReplaceAllTextOutcome where
  | message (text : String)
  | batchUpdate (requests : List SlideRequest)
deriving DecidableEq

/-- Whether the outcome issued a remote `presentations.batchUpdate`
call. -/
def SlidesReplaceAllTextOutcome.isBatchCall : SlidesReplaceAllTextOutcome → Bool
  | .message _ => false
  | .batchUpdate _ => true

/-- `SlidesService.replaceAllText` (SlidesService.ts:205-245), up to the
remote call: build one `replaceAllText` request per replacement entry
(in entry order, `matchCase: true`), return the
`No replacements provided.` message when there are none, and otherwise
issue the batch update. -/
def slidesReplaceAllText (replacements : List (String × String)) :
    SlidesReplaceAllTextOutcome :=
  let requests := replacements.map fun kv =>
    { replaceAllText := { text := kv.1, matchCase := true, replaceText := kv.2 } : SlideRequest }
  if requests.length = 0 then .message "No replacements provided."
  else .batchUpdate requests

/-! ## Auth Manager credential merge -/

/-- Modelled from the spec: the `Credential` record of spec §3
(`AuthManager.ts` is not among the sources; only its tests are). Fields
are optional, `Option.none` standing for JavaScript absent/undefined. -/
structure Credential where
  access_token : Option String := none
  refresh_token : Option String := none
  expiry_date : Option Int := none
  scope : Option String := none
deriving DecidableEq

/-- Modelled from the spec: the merge rule of spec §4.1 step 3, shared
by the token-update listener, the proactive refresh and manual
`refreshToken`: the result is `\x7b...previousCredential,
...newCredentialFields\x7d`, except that an absent/undefined
`refresh_token` in the new fields is explicitly carried forward from
the previous credential. With `Option` modelling definedness, spread
precedence is `Option.orElse` on each field. -/
def mergeCredentials (previous latest : Credential) : Credential :=
  { access_token := latest.access_token.orElse fun _ => previous.access_token,
    refresh_token :=
      match latest.refresh_token with
      | some r => some r
      | none => previous.refresh_token,
    expiry_date := latest.expiry_date.orElse fun _ => previous.expiry_date,
    scope := latest.scope.orElse fun _ => previous.scope }

/-! # Theorems -/

/-! ## Helper lemmas -/

theorem jsIndexOf_empty_pat (text : List Char) (start : Nat) :
    jsIndexOf text [] start = some (min start text.length) := by
  unfold jsIndexOf
  dsimp only
  have h1 : 1 ≤ text.length + 1 - min start text.length := by
    have : min start text.length ≤ text.length := Nat.min_le_right _ _
    omega
  have hmem : 0 ∈ List.range (text.length + 1 - min start text.length) := by
    simp only [List.mem_range]
    omega
  cases hr : List.range (text.length + 1 - min start text.length) with
  | nil => simp [hr] at hmem
  | cons a l =>
    have ha : a = 0 := by
      have := List.range_succ_eq_map (text.length + 1 - min start text.length - 1)
      have hn : text.length + 1 - min start text.length = (text.length + 1 - min start text.length - 1) + 1 := by omega
      rw [hn] at hr
      rw [this] at hr
      exact (List.cons.injEq _ _ _ _ ▸ hr).1.symm
    subst ha
    simp [List.findSome?, matchesAt]

/-- With an empty search string the occurrence loop can never take its
exit branch: `indexOf` always succeeds and `searchIndex` advances by
`0`, so every amount of fuel is exhausted. -/
theorem collectOccurrences_empty_find (text : List Char) :
    ∀ (fuel searchIndex : Nat) (acc : List Nat),
      collectOccurrences text [] fuel searchIndex acc = none := by
  intro fuel
  induction fuel with
  | zero => intro si acc; rfl
  | succ n ih =>
    intro si acc
    rw [collectOccurrences, jsIndexOf_empty_pat]
    exact ih _ _

/-- C2: the claim says the planner, given an empty `findText`,
terminates with zero occurrences and an empty operation list. The code
does the opposite: `indexOf` with an empty search string never returns
`-1` and `searchIndex` advances by `0`, so the occurrence loop never
exits. In the fueled model every fuel bound is exhausted (`none`), for
every document content and for every starting state of the loop. -/
theorem emptyFindText_planner_diverges :
    (∀ (content : Option (List SElem)) (tabId : Option String)
        (processed : List Char) (fmts : List DocsRequest),
        generateReplacementRequests content tabId [] processed fmts = none)
    ∧ ∀ (text : List Char) (fuel searchIndex : Nat) (acc : List Nat),
        collectOccurrences text [] fuel searchIndex acc = none := by
  refine ⟨?_, fun text => collectOccurrences_empty_find text⟩
  intro content tabId processed fmts
  unfold generateReplacementRequests
  dsimp only
  rw [collectOccurrences_empty_find]
  rfl

/-- C4: on fullText `"Hello world! Hello again!"`, findText `"Hello"`
and plain replacement `"Hi"`, the planner finds 1-based occurrences 1
and 14, emits delete `[1,6)` and insert at 1 for the first occurrence,
and computes the second adjusted position as `14 + (2 - 5) = 11`
(cumulative offset `-3` after the first occurrence). -/
theorem replaceText_cumulative_offset_example :
    collectOccurrences "Hello world! Hello again!".toList "Hello".toList 26 0 [] =
      some [1, 14]
    ∧ ((14 : Int) + (("Hi".toList.length : Int) - ("Hello".toList.length : Int)) = 11)
    ∧ generateReplacementRequests
        (some [.paragraph [some "Hello world! Hello again!"]]) none
        "Hello".toList "Hi".toList [] =
      some
        [{ deleteContentRange := some { range :=
            { tabId := none, startIndex := some 1, endIndex := some 6 } } },
         { insertText := some
             { location := some { tabId := none, index := 1 },
               text := "Hi".toList } },
         { deleteContentRange := some { range :=
            { tabId := none, startIndex := some 11, endIndex := some 16 } } },
         { insertText := some
             { location := some { tabId := none, index := 11 },
               text := "Hi".toList } }] := by
  refine ⟨by decide, by decide, by decide⟩

theorem enumFrom_succ_map {α β : Type} (l : List α) (n : Nat)
    (f : Nat × α → β) :
    (List.enumFrom (n + 1) l).map f =
      (List.enumFrom n l).map fun p => f (p.1 + 1, p.2) := by
  induction l generalizing n with
  | nil => rfl
  | cons a t ih =>
    simp only [List.enumFrom, List.map_cons]
    exact congrArg _ (ih (n + 1))

/-- Closed form of the planner's emission loop: the block emitted for
the `i`-th occurrence (0-based) is anchored at
`occurrence + cumulativeOffset + i * (processed.length - find.length)`. -/
theorem replacementLoop_closed_form (tabId : Option String)
    (find processed : List Char) (fmts : List DocsRequest) :
    ∀ (occs : List Nat) (cum : Int),
      replacementLoop tabId find processed fmts occs cum =
        ((List.enumFrom 0 occs).map fun p =>
          occurrenceBlock tabId find processed fmts
            ((p.2 : Int) + cum +
              (p.1 : Int) * ((processed.length : Int) - (find.length : Int)))).flatten := by
  intro occs
  induction occs with
  | nil => intro cum; rfl
  | cons o rest ih =>
    intro cum
    rw [replacementLoop]
    simp only [List.enumFrom, List.map_cons, List.flatten_cons]
    rw [enumFrom_succ_map]
    dsimp only
    simp only [Nat.cast_zero, zero_mul, add_zero]
    have hmap :
        ((List.enumFrom 0 rest).map fun p =>
          occurrenceBlock tabId find processed fmts
            ((p.2 : Int) + cum +
              ((p.1 + 1 : Nat) : Int) * ((processed.length : Int) - (find.length : Int)))) =
        (List.enumFrom 0 rest).map fun p =>
          occurrenceBlock tabId find processed fmts
            ((p.2 : Int) + (cum + ((processed.length : Int) - (find.length : Int))) +
              (p.1 : Int) * ((processed.length : Int) - (find.length : Int))) := by
      apply List.map_congr_left
      intro p _
      congr 1
      push_cast
      ring
    rw [hmap, ih]
    rfl

/-- C3 counterexample: lower a heading StyleRange at offset 0 (one
`updateParagraphStyle` request, exactly what compiling a heading
replacement produces), then plan replacing `"x"` by `"y"` in a document
reading `"x"` with that request as the compiled style operation. The
planner emits only the delete and the insert: the heading
`updateParagraphStyle` operation is never re-anchored or emitted,
refuting the claim's "for EVERY style operation … including heading
updateParagraphStyle operations". -/
theorem replacePlanner_drops_paragraph_style_cx :
    generateFormattingRequests 0
        [{ start := 0, stop := 1, type := .heading,
           headingLevel := some 1, isParagraph := some true }] =
      [{ updateParagraphStyle := some
          { paragraphStyle := { namedStyleType := "HEADING_1" },
            range := some { startIndex := some 0, endIndex := some 1 },
            fields := "namedStyleType" } }]
    ∧ generateReplacementRequests (some [.paragraph [some "x"]]) none
        "x".toList "y".toList
        [{ updateParagraphStyle := some
            { paragraphStyle := { namedStyleType := "HEADING_1" },
              range := some { startIndex := some 0, endIndex := some 1 },
              fields := "namedStyleType" } }] =
      some
        [{ deleteContentRange := some { range :=
            { tabId := none, startIndex := some 1, endIndex := some 2 } } },
         { insertText := some
             { location := some { tabId := none, index := 1 },
               text := "y".toList } }] :=
  ⟨by decide, by decide⟩

/-- C3 (amended): for the `i`-th occurrence (0-based, 1-based position
`p`) the planner emits, in this exact order: the delete of
`[adjusted, adjusted + len(findText))`, the insert of the processed
replacement at `adjusted`, and then, for exactly those compiled style
operations that are `updateTextStyle` operations (in their compiled
order), that operation re-anchored by adding `adjusted` to both its
start and end index (an absent index read as `0`); heading
`updateParagraphStyle` operations are dropped, not re-emitted. Here
`adjusted = p + i * (len(processed) - len(findText))`. -/
theorem replacePlanner_emission_order
    (content : Option (List SElem)) (tabId : Option String)
    (find processed : List Char) (fmts reqs : List DocsRequest)
    (h : generateReplacementRequests content tabId find processed fmts = some reqs) :
    (∃ occs,
      collectOccurrences (fullDocumentText content) find
          ((fullDocumentText content).length + 1) 0 [] = some occs ∧
      reqs = ((List.enumFrom 0 occs).map fun p =>
        occurrenceBlock tabId find processed fmts
          ((p.2 : Int) +
            (p.1 : Int) * ((processed.length : Int) - (find.length : Int)))).flatten)
    ∧ (∀ (adj : Int) (req : DocsRequest), req.updateTextStyle = none →
        reanchorFormatting tabId adj req = none)
    ∧ (∀ (adj : Int) (req : DocsRequest) (uts : UpdateTextStyleRequest),
        req.updateTextStyle = some uts →
        reanchorFormatting tabId adj req =
          some { updateTextStyle := some { uts with range := some { tabId := tabId, startIndex := some (((uts.range.bind DocRange.startIndex).getD 0) + adj), endIndex := some (((uts.range.bind DocRange.endIndex).getD 0) + adj) } } }) := by
  refine ⟨?_, ?_, ?_⟩
  · unfold generateReplacementRequests at h
    dsimp only at h
    cases hc : collectOccurrences (fullDocumentText content) find
        ((fullDocumentText content).length + 1) 0 [] with
    | none => rw [hc] at h; exact absurd h (by simp)
    | some occs =>
      rw [hc] at h
      refine ⟨occs, rfl, ?_⟩
      have hr := (Option.some.injEq _ _ ▸ h).symm
      rw [hr]
      dsimp only
      rw [replacementLoop_closed_form]
      apply congrArg
      apply List.map_congr_left
      intro p _
      congr 1
      try ring
  · intro adj req hnone
    unfold reanchorFormatting
    rw [hnone]
  · intro adj req uts hsome
    unfold reanchorFormatting
    rw [hsome]

/-- Witness for the amended C3 theorem at the worked example of the
spec: replacing `"Hello"` by `"Hi"` in
`"Hello world! Hello again!"`. -/
theorem replacePlanner_emission_order_witness :
    ∃ occs,
      collectOccurrences
        (fullDocumentText (some [.paragraph [some "Hello world! Hello again!"]]))
        "Hello".toList
        ((fullDocumentText (some [.paragraph [some "Hello world! Hello again!"]])).length + 1)
        0 [] = some occs := by
  obtain ⟨⟨occs, hoccs, -⟩, -, -⟩ :=
    replacePlanner_emission_order
      (some [.paragraph [some "Hello world! Hello again!"]]) none
      "Hello".toList "Hi".toList []
      (replacementLoop none "Hello".toList "Hi".toList [] [1, 14] 0) (by decide)
  exact ⟨occs, hoccs⟩

/-- If `findText` does not occur in the extracted document text, the
occurrence loop exits on its first `indexOf` and the planner returns an
empty request list. -/
theorem gen_no_occurrence (content : Option (List SElem))
    (tabId : Option String) (find processed : List Char)
    (fmts : List DocsRequest)
    (h : jsIndexOf (fullDocumentText content) find 0 = none) :
    generateReplacementRequests content tabId find processed fmts = some [] := by
  unfold generateReplacementRequests
  dsimp only
  rw [collectOccurrences, h]
  rfl

theorem mapM_gen_all_empty (find processed : List Char)
    (fmts : List DocsRequest) :
    ∀ (tabs : List DocTab),
      (∀ tab ∈ tabs, jsIndexOf (fullDocumentText tab.content) find 0 = none) →
      tabs.mapM (fun tab =>
          generateReplacementRequests tab.content tab.tabId find processed fmts) =
        some (tabs.map fun _ => ([] : List DocsRequest)) := by
  intro tabs
  induction tabs with
  | nil => intro _; rfl
  | cons tab rest ih =>
    intro hocc
    rw [List.mapM_cons]
    rw [gen_no_occurrence _ _ _ _ _ (hocc tab (List.mem_cons_self tab rest))]
    rw [ih fun t ht => hocc t (List.mem_cons_of_mem tab ht)]
    rfl

/-- C5: when `findText` has zero occurrences in the document text (of
the selected tab, or of every tab when no `tabId` is given),
`replaceText` builds an empty request list, does not call
`documents.batchUpdate`, and returns the plain success message — a
no-op, not an error. -/
theorem replaceText_no_occurrence_noop
    (documentId : String) (tabs : List DocTab) (tabId : Option String)
    (find processed : List Char) (fmts : List DocsRequest)
    (hocc : ∀ tab ∈ tabs, jsIndexOf (fullDocumentText tab.content) find 0 = none)
    (htab : ∀ t, tabId = some t → (tabs.find? fun tab => tab.tabId = some t).isSome) :
    replaceTextOutcome documentId tabs tabId find processed fmts =
      some (.ok
        { requests := [], batchUpdateCalled := false,
          resultText := "Successfully replaced text in document " ++ documentId }) := by
  unfold replaceTextOutcome
  dsimp only
  cases tabId with
  | some t =>
    dsimp only
    have hs := htab t rfl
    cases hft : tabs.find? (fun tab => tab.tabId = some t) with
    | none => rw [hft] at hs; simp at hs
    | some tab =>
      dsimp only
      have hmem : tab ∈ tabs := List.mem_of_find?_eq_some hft
      rw [gen_no_occurrence _ _ _ _ _ (hocc tab hmem)]
      rfl
  | none =>
    dsimp only
    rw [mapM_gen_all_empty _ _ _ _ hocc]
    have hflat : ∀ (l : List DocTab),
        ((l.map fun _ => ([] : List DocsRequest))).flatten = [] := by
      intro l
      induction l with
      | nil => rfl
      | cons tab rest ih =>
        simp only [List.map_cons, List.flatten_cons, List.nil_append]
        exact ih
    simp only [Option.map_some']
    rw [hflat tabs]
    rfl

/-- Witness for C5: a one-tab document reading `"abc"` searched for
`"xyz"`. -/
theorem replaceText_no_occurrence_noop_witness :
    replaceTextOutcome "doc1"
        [{ tabId := none, content := some [.paragraph [some "abc"]] }] none
        "xyz".toList "Q".toList [] =
      some (.ok
        { requests := [], batchUpdateCalled := false,
          resultText := "Successfully replaced text in document " ++ "doc1" }) :=
  replaceText_no_occurrence_noop "doc1"
    [{ tabId := none, content := some [.paragraph [some "abc"]] }] none
    "xyz".toList "Q".toList [] (by decide) (by intro t h; cases h)

theorem foldl_append_lowerRange (startIndex : Int) :
    ∀ (ranges : List FormatRange) (acc : List DocsRequest),
      ranges.foldl (fun acc r => acc ++ lowerRange startIndex r) acc =
        acc ++ (ranges.map (lowerRange startIndex)).flatten := by
  intro ranges
  induction ranges with
  | nil => intro acc; simp
  | cons r rest ih =>
    intro acc
    simp only [List.foldl_cons, List.map_cons, List.flatten_cons]
    rw [ih]
    simp [List.append_assoc]

/-- The compiler's lowering loop is the concatenation, in discovery
order, of each range's contribution. -/
theorem generateFormattingRequests_flatten (startIndex : Int)
    (ranges : List FormatRange) :
    generateFormattingRequests startIndex ranges =
      (ranges.map (lowerRange startIndex)).flatten := by
  unfold generateFormattingRequests
  rw [foldl_append_lowerRange]
  simp

/-- C6: a heading StyleRange (with the compiler's invariants: a heading
level `1 ≤ level ≤ 6` and the paragraph marker) lowers to exactly one
`updateParagraphStyle` request over
`[startIndex + start, startIndex + end)` carrying the named heading
style, with no `updateTextStyle` request for that range; and the whole
request list is the per-range concatenation, so that heading range
contributes nothing else. -/
theorem heading_range_lowering (startIndex : Int) (r : FormatRange)
    (level : Nat) (htype : r.type = .heading)
    (hlevel : r.headingLevel = some level) (h1 : 1 ≤ level) (h6 : level ≤ 6)
    (hpara : r.isParagraph = some true) :
    lowerRange startIndex r =
      [{ updateParagraphStyle := some
          { paragraphStyle := { namedStyleType := headingStyleName level },
            range := some { startIndex := some (startIndex + (r.start : Int)),
                            endIndex := some (startIndex + (r.stop : Int)) },
            fields := "namedStyleType" } }]
    ∧ (∀ req ∈ lowerRange startIndex r, req.updateTextStyle = none)
    ∧ ∀ ranges : List FormatRange,
        generateFormattingRequests startIndex ranges =
          (ranges.map (lowerRange startIndex)).flatten := by
  have hmain : lowerRange startIndex r =
      [{ updateParagraphStyle := some
          { paragraphStyle := { namedStyleType := headingStyleName level },
            range := some { startIndex := some (startIndex + (r.start : Int)),
                            endIndex := some (startIndex + (r.stop : Int)) },
            fields := "namedStyleType" } }] := by
    unfold lowerRange
    rw [htype, hlevel]
    dsimp only
    rw [if_pos ⟨by omega, hpara⟩]
  refine ⟨hmain, ?_, fun ranges => generateFormattingRequests_flatten startIndex ranges⟩
  intro req hreq
  rw [hmain] at hreq
  rcases List.mem_singleton.mp hreq with rfl
  rfl

/-- Witness for C6 at a concrete level-2 heading range over `[0, 3)`
inserted at offset 1. -/
theorem heading_range_lowering_witness :
    lowerRange 1
        { start := 0, stop := 3, type := .heading,
          headingLevel := some 2, isParagraph := some true } =
      [{ updateParagraphStyle := some
          { paragraphStyle := { namedStyleType := headingStyleName 2 },
            range := some { startIndex := some (1 + ((0 : Nat) : Int)),
                            endIndex := some (1 + ((3 : Nat) : Int)) },
            fields := "namedStyleType" } }] :=
  (heading_range_lowering 1
    { start := 0, stop := 3, type := .heading,
      headingLevel := some 2, isParagraph := some true }
    2 rfl rfl (by decide) (by decide) rfl).1

mutual

/-- The token walk only pushes bold/italic/code/link ranges: every
range after `processOne` was already there or is not a heading. -/
theorem processOne_ranges : ∀ (t : MdToken) (st : CompileState),
    ∀ r ∈ (processOne t st).ranges, r ∈ st.ranges ∨ r.type ≠ .heading
  | .mk ttype tokText href sub, st => by
    cases ttype with
    | text =>
      cases sub with
      | some ts => exact fun r hr => processMany_ranges ts st r hr
      | none => exact fun r hr => Or.inl hr
    | escape =>
      cases sub with
      | some ts => exact fun r hr => processMany_ranges ts st r hr
      | none => exact fun r hr => Or.inl hr
    | strong =>
      cases sub with
      | some ts =>
        intro r hr
        rcases List.mem_append.mp hr with h | h
        · exact processMany_ranges ts st r h
        · rcases List.mem_singleton.mp h with rfl
          exact Or.inr (by simp)
      | none =>
        intro r hr
        rcases List.mem_append.mp hr with h | h
        · exact Or.inl h
        · rcases List.mem_singleton.mp h with rfl
          exact Or.inr (by simp)
    | em =>
      cases sub with
      | some ts =>
        intro r hr
        rcases List.mem_append.mp hr with h | h
        · exact processMany_ranges ts st r h
        · rcases List.mem_singleton.mp h with rfl
          exact Or.inr (by simp)
      | none =>
        intro r hr
        rcases List.mem_append.mp hr with h | h
        · exact Or.inl h
        · rcases List.mem_singleton.mp h with rfl
          exact Or.inr (by simp)
    | codespan =>
      intro r hr
      rcases List.mem_append.mp hr with h | h
      · exact Or.inl h
      · rcases List.mem_singleton.mp h with rfl
        exact Or.inr (by simp)
    | link =>
      cases sub with
      | some ts =>
        intro r hr
        rcases List.mem_append.mp hr with h | h
        · exact processMany_ranges ts st r h
        · rcases List.mem_singleton.mp h with rfl
          exact Or.inr (by simp)
      | none =>
        intro r hr
        rcases List.mem_append.mp hr with h | h
        · exact Or.inl h
        · rcases List.mem_singleton.mp h with rfl
          exact Or.inr (by simp)
    | other tag =>
      cases sub with
      | some ts => exact fun r hr => processMany_ranges ts st r hr
      | none =>
        intro r hr
        by_cases hc : tokText = ""
        · refine Or.inl ?_
          simpa [processOne, hc] using hr
        · refine Or.inl ?_
          simpa [processOne, hc] using hr

theorem processMany_ranges : ∀ (ts : List MdToken) (st : CompileState),
    ∀ r ∈ (processMany ts st).ranges, r ∈ st.ranges ∨ r.type ≠ .heading
  | [], _ => fun r hr => Or.inl hr
  | t :: ts, st => by
    intro r hr
    rcases processMany_ranges ts (processOne t st) r hr with h | h
    · exact processOne_ranges t st r h
    · exact Or.inr h

end

theorem lowerRange_no_para (startIndex : Int) (r : FormatRange)
    (h : r.type ≠ .heading) :
    ∀ req ∈ lowerRange startIndex r, req.updateParagraphStyle = none := by
  intro req hreq
  unfold lowerRange at hreq
  cases htype : r.type with
  | heading => exact absurd htype h
  | bold =>
    rw [htype] at hreq
    rcases List.mem_singleton.mp hreq with rfl
    rfl
  | italic =>
    rw [htype] at hreq
    rcases List.mem_singleton.mp hreq with rfl
    rfl
  | code =>
    rw [htype] at hreq
    rcases List.mem_singleton.mp hreq with rfl
    rfl
  | link =>
    rw [htype] at hreq
    dsimp only at hreq
    cases hurl : r.url with
    | none => rw [hurl] at hreq; simp at hreq
    | some u =>
      rw [hurl] at hreq
      dsimp only at hreq
      by_cases hu : u = ""
      · rw [if_pos hu] at hreq; simp at hreq
      · rw [if_neg hu] at hreq
        rcases List.mem_singleton.mp hreq with rfl
        rfl

theorem generateFormattingRequests_no_para (startIndex : Int)
    (ranges : List FormatRange) (h : ∀ r ∈ ranges, r.type ≠ .heading) :
    ∀ req ∈ generateFormattingRequests startIndex ranges,
      req.updateParagraphStyle = none := by
  intro req hreq
  rw [generateFormattingRequests_flatten] at hreq
  rcases List.mem_flatten.mp hreq with ⟨l, hl, hreql⟩
  rcases List.mem_map.mp hl with ⟨r, hr, rfl⟩
  exact lowerRange_no_para startIndex r (h r hr) req hreql

/-- C7: the line `"####### too many hashes"` (seven `#`) is not matched
by the heading regex, so the compiler processes it as inline-only
content — whatever the inline lexer returns, no `updateParagraphStyle`
request is emitted for it (in particular it is neither heading level 7
nor defaulted to level 1). -/
theorem seven_hashes_not_heading (inlineTokens : List Char → List MdToken)
    (startIndex : Int) :
    headingMatch "####### too many hashes".toList = none
    ∧ ((parseMarkdownToDocsRequests inlineTokens "####### too many hashes".toList
          startIndex).2.all
        fun req => req.updateParagraphStyle.isNone) = true := by
  have hhm : headingMatch "####### too many hashes".toList = none := by decide
  refine ⟨hhm, ?_⟩
  have hsplit : splitLinesChars "####### too many hashes".toList =
      ["####### too many hashes".toList] := by decide
  unfold parseMarkdownToDocsRequests
  dsimp only
  rw [hsplit]
  show (generateFormattingRequests startIndex
      (compileLine inlineTokens "####### too many hashes".toList {}).ranges).all
      (fun req => req.updateParagraphStyle.isNone) = true
  unfold compileLine
  rw [hhm]
  rw [if_neg (by decide)]
  rw [List.all_eq_true]
  intro req hreq
  have hpara :=
    generateFormattingRequests_no_para startIndex
      (processMany (inlineTokens "####### too many hashes".toList) {}).ranges
      (fun r hr => by
        rcases processMany_ranges (inlineTokens "####### too many hashes".toList) {} r hr with h | h
        · simp at h
        · exact h)
      req hreq
  rw [hpara]
  rfl

theorem length_dropWhile_le {α : Type} (p : α → Bool) (l : List α) :
    (l.dropWhile p).length ≤ l.length := by
  induction l with
  | nil => simp [List.dropWhile]
  | cons a t ih =>
    by_cases h : p a
    · simp only [List.dropWhile, h]
      exact Nat.le_trans ih (Nat.le_succ _)
    · simp [List.dropWhile, h]

theorem collapseNewlineTail_eq_dropWhile (cs : List Char) :
    collapseNewlineTail cs =
      collapseNewlineRuns (cs.dropWhile fun c => c = '\n') := by
  induction cs with
  | nil => simp [collapseNewlineTail, collapseNewlineRuns, List.dropWhile]
  | cons c rest ih =>
    by_cases hc : c = '\n'
    · rw [collapseNewlineTail]
      simp only [hc, if_pos rfl]
      rw [ih]
      simp [List.dropWhile]
    · rw [collapseNewlineTail]
      rw [if_neg hc]
      simp [List.dropWhile, hc]

theorem collapseNewlineRuns_eq_spec :
    ∀ l : List Char, collapseNewlineRuns l = collapseNewlineRunsSpec l
  | [] => by simp [collapseNewlineRuns, collapseNewlineRunsSpec]
  | [c] => by
    by_cases hc : c = '\n'
    · subst hc
      simp [collapseNewlineRuns, collapseNewlineRunsSpec, List.takeWhile,
        List.dropWhile, List.replicate]
    · simp [collapseNewlineRuns, collapseNewlineRunsSpec, hc]
  | c1 :: c2 :: rest => by
    by_cases h1 : c1 = '\n'
    · by_cases h2 : c2 = '\n'
      · subst h1; subst h2
        rw [collapseNewlineRuns]
        rw [if_pos ⟨rfl, rfl⟩]
        rw [collapseNewlineTail_eq_dropWhile]
        rw [collapseNewlineRuns_eq_spec (rest.dropWhile fun c => c = '\n')]
        conv_rhs => rw [collapseNewlineRunsSpec]
        rw [if_pos rfl]
        rw [List.takeWhile_cons_of_pos (by simp),
          List.dropWhile_cons_of_pos (by simp)]
        simp only [List.length_cons]
        generalize (rest.takeWhile fun c => c = '\n').length = n
        rw [show (1 + (n + 1)) ⊓ 2 = 2 from by omega]
        simp [List.replicate]
      · subst h1
        rw [collapseNewlineRuns]
        rw [if_neg (fun hc => h2 hc.2)]
        rw [collapseNewlineRuns_eq_spec (c2 :: rest)]
        conv_rhs => rw [collapseNewlineRunsSpec]
        rw [if_pos rfl]
        rw [List.takeWhile_cons_of_neg (by simp [h2]),
          List.dropWhile_cons_of_neg (by simp [h2])]
        simp [List.replicate]
    · rw [collapseNewlineRuns]
      rw [if_neg (fun hc => h1 hc.1)]
      rw [collapseNewlineRuns_eq_spec (c2 :: rest)]
      conv_rhs => rw [collapseNewlineRunsSpec]
      rw [if_neg h1]
termination_by l => l.length
decreasing_by
  all_goals simp only [List.length_cons]
  all_goals (have h9 := length_dropWhile_le (fun c => decide (c = '\n')) rest; omega)

theorem collapseNewlineRuns_length_le :
    ∀ l : List Char, (collapseNewlineRuns l).length ≤ l.length
  | [] => by simp [collapseNewlineRuns]
  | [c] => by simp [collapseNewlineRuns]
  | c1 :: c2 :: rest => by
    by_cases h1 : c1 = '\n' ∧ c2 = '\n'
    · rw [collapseNewlineRuns, if_pos h1, collapseNewlineTail_eq_dropWhile]
      have h2 := collapseNewlineRuns_length_le (rest.dropWhile fun c => c = '\n')
      have h3 := length_dropWhile_le (fun c => decide (c = '\n')) rest
      simp only [List.length_cons]
      omega
    · rw [collapseNewlineRuns, if_neg h1]
      have h2 := collapseNewlineRuns_length_le (c2 :: rest)
      simp only [List.length_cons] at h2 ⊢
      omega
termination_by l => l.length
decreasing_by
  all_goals simp only [List.length_cons]
  all_goals first
    | omega
    | (have h9 := length_dropWhile_le (fun c => decide (c = '\n')) rest; omega)

theorem collapseNewlineRuns_head (x : Char) (xs : List Char) :
    ∃ t, collapseNewlineRuns (x :: xs) = x :: t := by
  cases xs with
  | nil => exact ⟨[], by simp [collapseNewlineRuns]⟩
  | cons y r =>
    by_cases h : x = '\n' ∧ y = '\n'
    · refine ⟨'\n' :: collapseNewlineTail r, ?_⟩
      rw [collapseNewlineRuns, if_pos h, h.1]
    · exact ⟨collapseNewlineRuns (y :: r), by rw [collapseNewlineRuns, if_neg h]⟩

theorem dropWhile_head_not {α : Type} (p : α → Bool) :
    ∀ l : List α, l.dropWhile p = [] ∨
      ∃ x xs, l.dropWhile p = x :: xs ∧ p x = false := by
  intro l
  induction l with
  | nil => exact Or.inl rfl
  | cons a t ih =>
    by_cases h : p a
    · rw [List.dropWhile_cons_of_pos h]
      exact ih
    · right
      refine ⟨a, t, List.dropWhile_cons_of_neg h, ?_⟩
      simpa using h

theorem collapseNewlineRuns_idem :
    ∀ l : List Char,
      collapseNewlineRuns (collapseNewlineRuns l) = collapseNewlineRuns l
  | [] => by simp [collapseNewlineRuns]
  | [c] => by simp [collapseNewlineRuns]
  | c1 :: c2 :: rest => by
    by_cases h1 : c1 = '\n' ∧ c2 = '\n'
    · obtain ⟨hc1, hc2⟩ := h1
      subst hc1; subst hc2
      rw [collapseNewlineRuns, if_pos ⟨rfl, rfl⟩, collapseNewlineTail_eq_dropWhile]
      rcases dropWhile_head_not (fun c => decide (c = '\n')) rest with hnil | ⟨x, xs, heq, hx⟩
      · rw [hnil]
        simp [collapseNewlineRuns, collapseNewlineTail]
      · rw [heq]
        obtain ⟨t, ht⟩ := collapseNewlineRuns_head x xs
        rw [ht]
        rw [collapseNewlineRuns, if_pos ⟨rfl, rfl⟩]
        rw [collapseNewlineTail]
        have hxne : ¬ x = '\n' := by simpa using hx
        rw [if_neg hxne]
        rw [← ht]
        rw [collapseNewlineRuns_idem (x :: xs)]
    · rw [collapseNewlineRuns, if_neg h1]
      obtain ⟨t, ht2⟩ := collapseNewlineRuns_head c2 rest
      rw [ht2]
      rw [collapseNewlineRuns, if_neg h1]
      rw [← ht2]
      rw [collapseNewlineRuns_idem (c2 :: rest)]
termination_by l => l.length
decreasing_by
  all_goals simp only [List.length_cons]
  all_goals first
    | omega
    | (have h := length_dropWhile_le (fun c => decide (c = '\n')) rest;
       rw [heq] at h; simp only [List.length_cons] at h; omega)

/-- C9: `processMarkdownLineBreaks` replaces every maximal run of two
or more newlines by exactly two and copies everything else (the
run-collapsing reading `collapseNewlineRunsSpec`); consequently it is
idempotent and never lengthens its input — and it can strictly shorten
it, as on `"a\n\n\nb"`, so the inserted text can be shorter than the
compiler's `plainText`. -/
theorem processMarkdownLineBreaks_spec :
    (∀ s : String,
      processMarkdownLineBreaks s = String.mk (collapseNewlineRunsSpec s.toList))
    ∧ (∀ s : String,
      processMarkdownLineBreaks (processMarkdownLineBreaks s) =
        processMarkdownLineBreaks s)
    ∧ (∀ s : String, (processMarkdownLineBreaks s).length ≤ s.length)
    ∧ processMarkdownLineBreaks "a\n\n\nb" = "a\n\nb" := by
  refine ⟨?_, ?_, ?_, ?_⟩
  · intro s
    unfold processMarkdownLineBreaks
    rw [collapseNewlineRuns_eq_spec]
  · intro s
    unfold processMarkdownLineBreaks
    show String.mk (collapseNewlineRuns (collapseNewlineRuns s.toList)) =
      String.mk (collapseNewlineRuns s.toList)
    rw [collapseNewlineRuns_idem]
  · intro s
    unfold processMarkdownLineBreaks
    show (String.mk (collapseNewlineRuns s.toList)).length ≤ s.length
    have h := collapseNewlineRuns_length_le s.toList
    have hlen1 : (String.mk (collapseNewlineRuns s.toList)).length =
        (collapseNewlineRuns s.toList).length := rfl
    have hlen2 : s.length = s.toList.length := rfl
    rw [hlen1, hlen2]
    exact h
  · unfold processMarkdownLineBreaks
    have h0 : "a\n\n\nb".toList = ['a', '\n', '\n', '\n', 'b'] := rfl
    rw [h0]
    rw [collapseNewlineRuns, if_neg (by decide)]
    rw [collapseNewlineRuns, if_pos ⟨rfl, rfl⟩]
    rw [collapseNewlineTail, if_pos rfl]
    rw [collapseNewlineTail, if_neg (by decide)]
    rw [collapseNewlineRuns]

/-- C8: `replaceAllText` with an empty replacements map issues no
`presentations.batchUpdate` call and returns the distinct
`No replacements provided.` message — in particular it is not an empty
successful batch. -/
theorem slides_replaceAllText_empty :
    slidesReplaceAllText [] = .message "No replacements provided."
    ∧ (slidesReplaceAllText []).isBatchCall = false := ⟨rfl, rfl⟩

/-- C1: modelled from the spec (§4.1 step 3): every credential merge
keeps the new token set's `refresh_token` when it is defined and
otherwise carries the previous one forward; `access_token`,
`expiry_date` and `scope` take the new token set's value whenever that
value is present. The single `mergeCredentials` stands for the merge in
the token-update listener, the proactive refresh and the manual
`refreshToken`, which the spec requires to share this rule. -/
theorem mergeCredentials_refresh_token_rule (previous latest : Credential) :
    (mergeCredentials previous latest).refresh_token =
      (if latest.refresh_token.isSome then latest.refresh_token
       else previous.refresh_token)
    ∧ (∀ a, latest.access_token = some a →
        (mergeCredentials previous latest).access_token = some a)
    ∧ (∀ e, latest.expiry_date = some e →
        (mergeCredentials previous latest).expiry_date = some e)
    ∧ (∀ sc, latest.scope = some sc →
        (mergeCredentials previous latest).scope = some sc) := by
  refine ⟨?_, ?_, ?_, ?_⟩
  · cases h : latest.refresh_token with
    | none => simp [mergeCredentials, h]
    | some r => simp [mergeCredentials, h]
  · intro a h
    simp [mergeCredentials, h, Option.orElse]
  · intro e h
    simp [mergeCredentials, h, Option.orElse]
  · intro sc h
    simp [mergeCredentials, h, Option.orElse]

/-- Witness for C1, mirroring the AuthManager tokens-event test: the
stored credential has `refresh_token = "old_refresh"`, the update omits
it, and the merge preserves it while taking the new access token. -/
theorem mergeCredentials_refresh_token_rule_witness :
    (mergeCredentials
        { access_token := some "old_token", refresh_token := some "old_refresh",
          expiry_date := none, scope := some "scope1" }
        { access_token := some "new_token", refresh_token := none,
          expiry_date := some 123456789, scope := none }).refresh_token =
      some "old_refresh"
    ∧ (mergeCredentials
        { access_token := some "old_token", refresh_token := some "old_refresh",
          expiry_date := none, scope := some "scope1" }
        { access_token := some "new_token", refresh_token := none,
          expiry_date := some 123456789, scope := none }).access_token =
      some "new_token" := by
  have h := mergeCredentials_refresh_token_rule
    { access_token := some "old_token", refresh_token := some "old_refresh",
      expiry_date := none, scope := some "scope1" }
    { access_token := some "new_token", refresh_token := none,
      expiry_date := some 123456789, scope := none }
  exact ⟨by rw [h.1]; rfl, h.2.1 "new_token" rfl⟩

/-- C10: with no `tabId`, `_addTabIdToFormattingRequests` returns its
input unchanged; with a (truthy) `tabId`, the result is the elementwise
`tagRequest` image, and `tagRequest` changes nothing outside the three
`tabId` slots of `updateTextStyle.range`, `updateParagraphStyle.range`
and `insertText.location`: erasing exactly those slots
(`stripPlannerTabIds`) equalises input and output, and
`deleteContentRange` — `tabId` included — is untouched. -/
theorem addTabIdToFormattingRequests_frame (requests : List DocsRequest) :
    addTabIdToFormattingRequests requests none = requests
    ∧ (∀ t : String, t ≠ "" →
        addTabIdToFormattingRequests requests (some t) =
          requests.map (tagRequest t))
    ∧ ∀ (t : String) (req : DocsRequest),
        stripPlannerTabIds (tagRequest t req) = stripPlannerTabIds req
        ∧ (tagRequest t req).deleteContentRange = req.deleteContentRange := by
  refine ⟨rfl, ?_, ?_⟩
  · intro t ht
    unfold addTabIdToFormattingRequests
    dsimp only
    by_cases hr : requests = []
    · subst hr
      simp
    · rw [if_neg (by simp [ht, hr])]
  · intro t req
    obtain ⟨uts, ups, ins, del⟩ := req
    rcases uts with _ | ⟨_ | r1, ts1, f1⟩ <;>
      rcases ups with _ | ⟨ps2, _ | r2, f2⟩ <;>
        rcases ins with _ | ⟨_ | loc3, tx3⟩ <;>
          exact ⟨rfl, rfl⟩

/-- Witness for C10: a bold `updateTextStyle` request tagged with
`tab-1` keeps its style, fields and indices and only gains the range
`tabId`. -/
theorem addTabIdToFormattingRequests_frame_witness :
    addTabIdToFormattingRequests
        [{ updateTextStyle := some
            { range := some { startIndex := some 2, endIndex := some 7 },
              textStyle := { bold := some true }, fields := "bold" } }]
        (some "tab-1") =
      [{ updateTextStyle := some
          { range := some
              { tabId := some "tab-1", startIndex := some 2, endIndex := some 7 },
            textStyle := { bold := some true }, fields := "bold" } }] := by
  have h := (addTabIdToFormattingRequests_frame
    [{ updateTextStyle := some
        { range := some { startIndex := some 2, endIndex := some 7 },
          textStyle := { bold := some true }, fields := "bold" } }]).2.1
    "tab-1" (by decide)
  rw [h]
  rfl
